import Mathlib

/-!
Verification of the response post-processing pipeline of the LinkedIn post
generator (src/app.py): the incomplete-output heuristic `is_incomplete_text`,
the visual-line cleaner `remove_visual_lines_from_post`, the post/visuals
splitter `split_post_and_visuals`, and the per-draft generation loop with its
one-retry policy.

Strings are embedded as `List Char`.  Python string primitives
(`str.strip`, `str.splitlines`, membership of the regex class `\s`, `\w`,
`\d`) are modelled on the character set the program actually processes
(ASCII plus the literal non-ASCII characters appearing in the source):
`is_space` covers space, tab, newline, carriage return, vertical tab and
form feed; `splitlines` breaks on newline, carriage return (with CRLF as a
single break), vertical tab and form feed.  Each regular expression of the
source is embedded as a dedicated matching function, commented with the
pattern it implements.
-/

namespace LinkedInGen

open List in
/-- Abbreviation used below; strings are embedded as lists of characters. -/
abbrev Str := List Char

open List

/-- Python whitespace (`str.strip` / regex class `\s`), ASCII fragment. -/
def isPySpace (c : Char) : Bool :=
  c = ' ' || c = '\t' || c = '\n' || c = '\r' || c = '\x0b' || c = '\x0c'

/-- Line-break characters recognised by Python `str.splitlines`
(ASCII fragment; CRLF is treated as a single break by `splitlines`). -/
def isLineBreak (c : Char) : Bool :=
  c = '\n' || c = '\r' || c = '\x0b' || c = '\x0c'

/-- `str.lstrip()` : drop leading whitespace. -/
def lstrip (s : Str) : Str := s.dropWhile isPySpace

/-- `str.rstrip()` : drop trailing whitespace. -/
def rstrip (s : Str) : Str := (s.reverse.dropWhile isPySpace).reverse

/-- `str.strip()` : drop whitespace at both ends. -/
def pyStrip (s : Str) : Str := rstrip (lstrip s)

/-- Worker for `splitlines`; `acc` holds the current line reversed. -/
def splitlinesAux : Str → Str → List Str
  | [], acc => if acc.isEmpty then [] else [acc.reverse]
  | '\r' :: '\n' :: rest, acc => acc.reverse :: splitlinesAux rest []
  | c :: rest, acc =>
      if isLineBreak c then acc.reverse :: splitlinesAux rest []
      else splitlinesAux rest (c :: acc)

/-- `str.splitlines()` : split at line breaks, no trailing empty line. -/
def splitlines (s : Str) : List Str := splitlinesAux s []

/-- Join a list of lines with a newline separator (`"\n".join(...)`). -/
def joinNl : List Str → Str
  | [] => []
  | l :: ls =>
      match ls with
      | [] => l
      | _ :: _ => l ++ '\n' :: joinNl ls

/-- Is every character of `l` whitespace? -/
def allWS (l : Str) : Bool := l.all isPySpace

/-- Python `\w` word character (ASCII fragment): letters, digits, underscore. -/
def isWordChar (c : Char) : Bool := c.isAlphanum || c = '_'

/-- Case-insensitive prefix test: is `pat` (given lowercase) a prefix of `s`
up to lowercasing of `s`?  Mirrors matching a literal under regex flag `i`. -/
def ciPrefix : Str → Str → Bool
  | [], _ => true
  | _ :: _, [] => false
  | p :: ps, c :: cs => p = c.toLower && ciPrefix ps cs

/-- Case-insensitive literal consumption: drop `pat` from the front of `s`
if it matches (used to consume a literal token inside a regex). -/
def ciDrop : Str → Str → Option Str
  | [], s => some s
  | _ :: _, [] => none
  | p :: ps, c :: cs => if p = c.toLower then ciDrop ps cs else none

/-- One token of an embedded regex literal: an exact (lowercase) character or
the digit class `\d`. -/
inductive RTok
  | lit (c : Char)
  | digit
deriving DecidableEq

def litToks (s : Str) : List RTok := s.map RTok.lit

/-- Consume a token sequence from the front of `s` (case-insensitively for
literal characters), returning the rest on success. -/
def matchToks : List RTok → Str → Option Str
  | [], s => some s
  | _ :: _, [] => none
  | RTok.lit p :: ts, c :: cs => if p = c.toLower then matchToks ts cs else none
  | RTok.digit :: ts, c :: cs => if c.isDigit then matchToks ts cs else none

/-- The alternatives of the cleaner regex in `remove_visual_lines_from_post`:
`(?i)\b(visuals|image options|overlay text|slide \d|carousel|suggestion|image idea|visual)\b`. -/
def visualKeywordAlts : List (List RTok) :=
  [ litToks ("visuals".data),
    litToks ("image options".data),
    litToks ("overlay text".data),
    litToks ("slide ".data) ++ [RTok.digit],
    litToks ("carousel".data),
    litToks ("suggestion".data),
    litToks ("image idea".data),
    litToks ("visual".data) ]

/-- Word boundary `\b` after a match that ends in a word character: the rest
must be empty or start with a non-word character. -/
def wordBoundaryAfter : Str → Bool
  | [] => true
  | c :: _ => !isWordChar c

/-- Word boundary `\b` before a match that starts with a word character:
the previous character (if any) must be a non-word character. -/
def boundaryBefore : Option Char → Bool
  | none => true
  | some c => !isWordChar c

/-- Does one of the keyword alternatives match at the current position
(with the trailing word boundary)? -/
def altMatchesAt (s : Str) : Bool :=
  visualKeywordAlts.any fun alt =>
    match matchToks alt s with
    | some rest => wordBoundaryAfter rest
    | none => false

/-- Scan of `re.search` for the cleaner regex: try every position, tracking
the previous character for the leading word boundary. -/
def keywordSearchAux : Option Char → Str → Bool
  | _, [] => false
  | prev, c :: rest =>
      (boundaryBefore prev && altMatchesAt (c :: rest)) ||
        keywordSearchAux (some c) rest

/-- `re.search(r"(?i)\b(visuals|image options|overlay text|slide \d|carousel|suggestion|image idea|visual)\b", ln)` is not `None`. -/
def containsVisualKeyword (ln : Str) : Bool := keywordSearchAux none ln

/-- `remove_visual_lines_from_post` (src/app.py lines 64-73): drop every line
matching the keyword regex, rejoin with newlines, strip. -/
def remove_visual_lines_from_post (post_text : Str) : Str :=
  if post_text.isEmpty then []
  else pyStrip (joinNl ((splitlines post_text).filter
        fun ln => !containsVisualKeyword ln))

/-- The characters of the degenerate-content test `"*- \n\r\t"`. -/
def junkChars : Str := ['*', '-', ' ', '\n', '\r', '\t']

/-- The suffixes tested by `t.endswith(...)` in `is_incomplete_text`,
exactly as they appear in src/app.py line 58: `"..."`, the three characters
U+00E2 U+20AC U+00A6 (the source file's byte form of an ellipsis), `"-"`,
and U+00E2 U+20AC U+201D (the source file's byte form of an em-dash). -/
def incompleteSuffixes : List Str :=
  [ ['.', '.', '.'],
    ['â', '€', '¦'],
    ['-'],
    ['â', '€', '”'] ]

/-- `is_incomplete_text` (src/app.py lines 52-62). -/
def is_incomplete_text (text : Str) : Bool :=
  if text.isEmpty then true
  else
    let t := pyStrip text
    if t.length < 40 then true
    else if incompleteSuffixes.any (fun suf => suf.isSuffixOf t) then true
    else if t.all (fun ch => junkChars.contains ch) then true
    else false

/-- Does `re.search(r"(?mi)^\s*(visuals(?:/image options)?\s*[:\-]?)", ...)`
match at the current position (a line start)?  Since `\s` never matches `v`,
the `\s*` must consume the maximal whitespace run (which may cross newlines)
and land on the literal `visuals`; the remaining groups are optional and
cannot fail. -/
def visualsHeaderAt (s : Str) : Bool :=
  (ciDrop ("visuals".data) (s.dropWhile isPySpace)).isSome

/-- Position of the leftmost match of the step-1 header regex: the smallest
index that starts the string or follows a newline (multiline `^`) at which
`visualsHeaderAt` holds.  `prev` is the character before the current
position (`none` at the string start). -/
def findVisualsHeader : Nat → Option Char → Str → Option Nat
  | i, prev, [] =>
      if (prev.isNone || prev == some '\n') && visualsHeaderAt [] then some i
      else none
  | i, prev, c :: rest =>
      if (prev.isNone || prev == some '\n') && visualsHeaderAt (c :: rest) then
        some i
      else findVisualsHeader (i + 1) (some c) rest

/-- Position of the leftmost match of the step-2 regex
`re.search(r"(?mi)\nvisuals(?:/image options)?\s*[:\-]?", ...)`: the
smallest index holding a newline immediately followed by `visuals`
(case-insensitively); the optional groups cannot fail. -/
def findNlVisuals : Nat → Str → Option Nat
  | _, [] => none
  | i, c :: rest =>
      if c = '\n' && ciPrefix ("visuals".data) rest then some i
      else findNlVisuals (i + 1) rest

/-- Consume the optional group `(?:/image options)?` (case-insensitively). -/
def optIm (s2 : Str) : Str :=
  match ciDrop ("/image options".data) s2 with
  | some r => r
  | none => s2

/-- Consume the optional character class `[:\-]?`. -/
def optColonDash (s : Str) : Str :=
  match s with
  | c :: r => if c = ':' || c = '-' then r else s
  | [] => s

/-- Full match (at a line start) of the visuals-header substitution pattern
`^\s*(visuals(?:/image options)?\s*[:\-]?\s*)`: maximal whitespace, the
literal `visuals`, optionally `/image options`, whitespace, an optional
colon or dash, whitespace.  Returns the rest of the string on success. -/
def visHeaderMatch (s : Str) : Option Str :=
  match ciDrop ("visuals".data) (s.dropWhile isPySpace) with
  | none => none
  | some s2 =>
      some ((optColonDash ((optIm s2).dropWhile isPySpace)).dropWhile isPySpace)

/-- Full match (at a line start) of the post-label substitution pattern
`^\s*(post\s*[:\-]?\s*)`: maximal whitespace, the literal `post`,
whitespace, an optional colon or dash, whitespace. -/
def postLabelMatch (s : Str) : Option Str :=
  match ciDrop ("post".data) (s.dropWhile isPySpace) with
  | none => none
  | some s2 =>
      some ((optColonDash (s2.dropWhile isPySpace)).dropWhile isPySpace)

/-- `re.sub(pattern, "", s)` for a multiline line-start-anchored pattern:
scan left to right; at every position that starts the string or follows a
newline of the original string, if the pattern matches, emit nothing and
continue after the match, else emit the character and advance.  `fuel`
bounds the recursion (every step consumes at least one character). -/
def subAllAux (matchFn : Str → Option Str) : Nat → Option Char → Str → Str
  | 0, _, s => s
  | _ + 1, _, [] => []
  | fuel + 1, prev, c :: rest =>
      if prev.isNone || prev == some '\n' then
        match matchFn (c :: rest) with
        | some r =>
            let consumed := (c :: rest).take ((c :: rest).length - r.length)
            subAllAux matchFn fuel consumed.getLast? r
        | none => c :: subAllAux matchFn fuel (some c) rest
      else c :: subAllAux matchFn fuel (some c) rest

def subAll (matchFn : Str → Option Str) (s : Str) : Str :=
  subAllAux matchFn s.length none s

/-- Trigger test of the trailing heuristic:
`re.match(r"(?i)^\s*[-•]?\s*(image|slide|visual|overlay|carousel)\b", ln.strip())`.
After stripping, the leading `\s*` is empty; then an optional dash or
bullet, whitespace, and one of the keywords followed by a word boundary. -/
def trailingTrigger (ln : Str) : Bool :=
  let t := pyStrip ln
  let t1 := match t with
    | c :: r => if c = '-' || c = '•' then r else t
    | [] => t
  let t2 := t1.dropWhile isPySpace
  [("image".data), ("slide".data), ("visual".data), ("overlay".data),
   ("carousel".data)].any fun kw =>
    match ciDrop kw t2 with
    | some rest => wordBoundaryAfter rest
    | none => false

/-- Backward scan of the trailing heuristic: check indices `i, i-1, ...`
(at most `k` of them), returning the first index whose line triggers. -/
def trailingScanFrom (lines : List Str) : Nat → Nat → Option Nat
  | _, 0 => none
  | i, k + 1 =>
      if trailingTrigger (lines.getD i []) then some i
      else
        match i with
        | 0 => none
        | i' + 1 => trailingScanFrom lines i' k

/-- The loop `for i in range(len(lines)-1, max(-1, len(lines)-8), -1)`:
scan the last up-to-7 lines backward for a trigger line. -/
def trailingScan (lines : List Str) : Option Nat :=
  match lines.length with
  | 0 => none
  | n + 1 => trailingScanFrom lines n (min (n + 1) 7)

/-- `split_post_and_visuals` (src/app.py lines 75-119). -/
def split_post_and_visuals (raw_text : Str) : Str × Str :=
  if raw_text.isEmpty then ([], [])
  else
    let text := pyStrip raw_text
    match findVisualsHeader 0 none text with
    | some i =>
        let post_part := pyStrip (text.take i)
        let visuals_part := pyStrip (text.drop i)
        let visuals_part := pyStrip (subAll visHeaderMatch visuals_part)
        let post_part := pyStrip (subAll postLabelMatch post_part)
        (remove_visual_lines_from_post post_part, visuals_part)
    | none =>
      match findNlVisuals 0 text with
      | some i =>
          let post_part := pyStrip (text.take i)
          let visuals_part := pyStrip (text.drop i)
          let visuals_part := pyStrip (subAll visHeaderMatch visuals_part)
          let post_part := pyStrip (subAll postLabelMatch post_part)
          (remove_visual_lines_from_post post_part, visuals_part)
      | none =>
        let lines := splitlines text
        match trailingScan lines with
        | some i =>
            let post_part := pyStrip (joinNl (lines.take i))
            let visuals_part := pyStrip (joinNl (lines.drop i))
            (remove_visual_lines_from_post post_part,
             pyStrip (subAll visHeaderMatch visuals_part))
        | none => (remove_visual_lines_from_post text, [])

/-! ## The draft-generation loop (src/app.py lines 420-470)

One completion request, as assembled before the `while` loop: the compiled
system prompt, the user message built from topic and reference post, the
model name, temperature and `max_tokens`.  All of these are loop-invariant
in the source (the user message is rebuilt each iteration from the same
`topic`/`reference_post`, hence identical), so the loop carries a single
`Request` value. -/
structure Request where
  systemPrompt : Str
  userMessage : Str
  modelName : Str
  temperature : ℚ
  maxTokens : Nat
deriving DecidableEq

/-- Outcome of one call to `client.chat.completions.create`: the returned
message content, or a raised exception (its text and the traceback that
`traceback.format_exc()` would render). -/
inductive CallResult
  | success (text : Str)
  | failure (err : Str) (tb : Str)
deriving DecidableEq

/-- `f"[Error generating draft: {exc}]\n\n{traceback.format_exc()}"`. -/
def errorPlaceholder (err tb : Str) : Str :=
  ("[Error generating draft: ".data) ++ err ++ ("]\n\n".data) ++ tb

/-- `lines[0].lower().startswith(("draft", "1)", "---"))`. -/
def startsWithDraftLabel (l0 : Str) : Bool :=
  let low := l0.map Char.toLower
  ("draft".data).isPrefixOf low || ("1)".data).isPrefixOf low ||
    ("---".data).isPrefixOf low

/-- Post-processing of one successful response (src/app.py lines 441-445):
strip the content, then drop a first line that looks like a draft heading. -/
def processResponse (t : Str) : Str :=
  let raw := pyStrip t
  match splitlines raw with
  | [] => raw
  | l0 :: rest =>
      if startsWithDraftLabel l0 then pyStrip (joinNl rest) else raw

/-- The `while attempt < 2` loop of one draft (src/app.py lines 422-455).
`complete a req` is the outcome of the completion call issued on attempt
`a`; `remaining` is the fuel `2 - attempt`; `generated` is the current
`generated_raw`; `calls` accumulates the requests actually issued.
Returns the final `generated_raw` together with the issued requests. -/
def attemptLoop (complete : Nat → Request → CallResult) (req : Request) :
    Nat → Nat → Str → List Request → Str × List Request
  | 0, _, generated, calls => (generated, calls)
  | remaining + 1, attempt, generated, calls =>
      match complete (attempt + 1) req with
      | CallResult.failure e tb => (errorPlaceholder e tb, calls ++ [req])
      | CallResult.success t =>
          let raw := processResponse t
          if is_incomplete_text raw && decide (attempt + 1 < 2) then
            attemptLoop complete req remaining (attempt + 1) generated
              (calls ++ [req])
          else (raw, calls ++ [req])

/-- One draft's attempt loop, started with `attempt = 0`,
`generated_raw = ""` and no calls issued. -/
def runDraft (complete : Nat → Request → CallResult) (req : Request) :
    Str × List Request :=
  attemptLoop complete req 2 0 [] []

/-- `drafts.append(generated_raw if generated_raw else "[No content generated]")`. -/
def finalDraftText (complete : Nat → Request → CallResult) (req : Request) :
    Str :=
  let g := (runDraft complete req).1
  if g.isEmpty then ("[No content generated]".data) else g

/-- The `for idx in range(num_drafts)` loop: draft `idx` uses the completion
outcomes `complete idx` and the shared request. -/
def runBatch (complete : Nat → Nat → Request → CallResult) (req : Request)
    (numDrafts : Nat) : List Str :=
  (List.range numDrafts).map fun idx => finalDraftText (complete idx) req

/-- Derivation of a draft's displayed post text (src/app.py lines 464-465):
`post_text, _ = split_post_and_visuals(raw)` followed by
`post_text = remove_visual_lines_from_post(post_text)`. -/
def pipelinePostText (raw : Str) : Str :=
  remove_visual_lines_from_post (split_post_and_visuals raw).1

/-!  Auxiliary definitions used in the analysis (not part of the source). -/

/-- Drop leading all-whitespace lines and left-strip the first surviving
line: the effect of `lstrip` on a newline-joined list of lines. -/
def ltrimLines : List Str → List Str
  | [] => []
  | l :: ls => if allWS l then ltrimLines ls else lstrip l :: ls

/-- Drop trailing all-whitespace lines and right-strip the last surviving
line: the effect of `rstrip` on a newline-joined list of lines. -/
def rtrimLines : List Str → List Str
  | [] => []
  | l :: ls =>
      match rtrimLines ls with
      | [] => if allWS l then [] else [rstrip l]
      | l' :: ls' => l :: l' :: ls'

/-- A completion outcome that is the same on every attempt of every draft. -/
def constOutcome (res : CallResult) : Nat → Request → CallResult :=
  fun _ _ => res

/-- A sample request value for concrete instantiations. -/
def sampleRequest : Request :=
  { systemPrompt := ("sys".data), userMessage := ("topic".data),
    modelName := ("llama-3.1-8b-instant".data), temperature := 11 / 20,
    maxTokens := 900 }

/-- A response that consists solely of a visuals section. -/
def visualsOnlyText : Str := ("Visuals/Image options:\nSlide 1: photo".data)

/-- A raw model output whose post part keeps a trailing `Image:` line. -/
def imageTailRaw : Str :=
  ("Hello there everyone.\nImage: foo\nVisuals:\nx".data)

/-- A raw model output repeating one sentence on both sides of the header. -/
def repeatedSentenceRaw : Str := ("Buy now.\nVisuals:\nBuy now.".data)

/-! ## Lemmas about the stripping primitives -/

theorem dropWhile_idem (p : Char → Bool) (l : Str) :
    (l.dropWhile p).dropWhile p = l.dropWhile p := by
  induction l with
  | nil => rfl
  | cons c t ih =>
      by_cases h : p c
      · simp [List.dropWhile_cons, h, ih]
      · simp [List.dropWhile_cons, h]

theorem lstrip_idem (s : Str) : lstrip (lstrip s) = lstrip s :=
  dropWhile_idem _ s

theorem rstrip_idem (s : Str) : rstrip (rstrip s) = rstrip s := by
  simp [rstrip, dropWhile_idem]

theorem lstrip_suffix (s : Str) : lstrip s <:+ s := List.dropWhile_suffix _

theorem rstrip_prefix_self (s : Str) : rstrip s <+: s := by
  have h : s.reverse.dropWhile isPySpace <:+ s.reverse :=
    List.dropWhile_suffix _
  have h2 := List.reverse_prefix.mpr h
  simpa [rstrip] using h2

theorem lstrip_of_prefix {x y : Str} (hx : lstrip x = x) (hp : y <+: x) :
    lstrip y = y := by
  cases y with
  | nil => rfl
  | cons c t =>
      obtain ⟨r, hr⟩ := hp
      have hc : isPySpace c = false := by
        by_contra hcc
        have hcc' : isPySpace c = true := by
          cases hpc : isPySpace c
          · exact absurd hpc hcc
          · rfl
        have hxe : x = List.dropWhile isPySpace (t ++ r) := by
          rw [← hx, ← hr]
          simp [lstrip, List.dropWhile_cons, hcc']
        have hlen : (List.dropWhile isPySpace (t ++ r)).length ≤
            (t ++ r).length :=
          (List.dropWhile_sublist _).length_le
        have hxlen : x.length = (t ++ r).length + 1 := by
          rw [← hr]; simp
        rw [hxe] at hxlen
        omega
      simp [lstrip, List.dropWhile_cons, hc]

theorem pyStrip_idem (s : Str) : pyStrip (pyStrip s) = pyStrip s := by
  unfold pyStrip
  have h1 : lstrip (rstrip (lstrip s)) = rstrip (lstrip s) :=
    lstrip_of_prefix (lstrip_idem s) (rstrip_prefix_self _)
  rw [h1, rstrip_idem]

theorem pyStrip_eq_nil_of_all_space {s : Str}
    (h : ∀ c ∈ s, isPySpace c = true) : pyStrip s = [] := by
  have h1 : lstrip s = [] := List.dropWhile_eq_nil_iff.mpr h
  simp [pyStrip, h1, rstrip]

theorem remove_visual_stripped (x : Str) :
    pyStrip (remove_visual_lines_from_post x) =
      remove_visual_lines_from_post x := by
  unfold remove_visual_lines_from_post
  split
  · rfl
  · exact pyStrip_idem _

theorem lstrip_isEmpty_iff {a : Str} :
    (lstrip a).isEmpty = true ↔ allWS a = true := by
  simp [lstrip, allWS, List.isEmpty_iff, List.dropWhile_eq_nil_iff,
    List.all_eq_true]

theorem rstrip_eq_nil_iff {a : Str} : rstrip a = [] ↔ allWS a = true := by
  simp [rstrip, allWS, List.dropWhile_eq_nil_iff, List.all_eq_true]

theorem lstrip_eq_nil_iff {a : Str} : lstrip a = [] ↔ allWS a = true := by
  rw [← lstrip_isEmpty_iff, List.isEmpty_iff]

theorem lstrip_append (a b : Str) :
    lstrip (a ++ b) = if allWS a then lstrip b else lstrip a ++ b := by
  by_cases h : allWS a
  · have h1 : (lstrip a).isEmpty = true := lstrip_isEmpty_iff.mpr h
    simp only [lstrip] at h1
    simp only [lstrip, List.dropWhile_append, h1, if_true, h]
  · have h1 : (lstrip a).isEmpty = false := by
      cases hh : (lstrip a).isEmpty
      · rfl
      · exact absurd (lstrip_isEmpty_iff.mp hh) h
    simp only [lstrip] at h1
    simp only [lstrip, List.dropWhile_append, h1, if_false, h,
      Bool.false_eq_true]

theorem rstrip_append (a b : Str) :
    rstrip (a ++ b) = if allWS b then rstrip a else a ++ rstrip b := by
  by_cases h : allWS b
  · have h1 : (b.reverse.dropWhile isPySpace).isEmpty = true := by
      rw [List.isEmpty_iff]
      have h0 := rstrip_eq_nil_iff.mpr h
      simpa [rstrip] using h0
    simp [rstrip, List.reverse_append, List.dropWhile_append, h1, h]
  · have h1 : (b.reverse.dropWhile isPySpace).isEmpty = false := by
      cases hh : (b.reverse.dropWhile isPySpace).isEmpty
      · rfl
      · exact absurd (rstrip_eq_nil_iff.mp
          (by simp [rstrip, List.isEmpty_iff.mp hh])) h
    simp [rstrip, List.reverse_append, List.dropWhile_append, h1, h]

/-! ## Lemmas about splitlines and joinNl -/

theorem splitlinesAux_mem_no_break (s acc : Str) :
    (∀ c ∈ acc, isLineBreak c = false) →
      ∀ ln ∈ splitlinesAux s acc, ∀ c ∈ ln, isLineBreak c = false := by
  induction s, acc using splitlinesAux.induct with
  | case1 acc h1 =>
      intro _ ln hln
      rw [splitlinesAux.eq_1, if_pos h1] at hln
      simp at hln
  | case2 acc h1 =>
      intro hacc ln hln
      rw [splitlinesAux.eq_1, if_neg h1] at hln
      simp at hln
      subst hln
      intro c hc
      exact hacc c (List.mem_reverse.mp hc)
  | case3 rest acc ih =>
      intro hacc ln hln
      rw [splitlinesAux.eq_2] at hln
      rcases List.mem_cons.mp hln with h2 | h2
      · subst h2
        intro c hc
        exact hacc c (List.mem_reverse.mp hc)
      · exact ih (by simp) ln h2
  | case4 c rest acc hne hlb ih =>
      intro hacc ln hln
      rw [splitlinesAux.eq_3 _ _ _ hne, if_pos hlb] at hln
      rcases List.mem_cons.mp hln with h2 | h2
      · subst h2
        intro d hd
        exact hacc d (List.mem_reverse.mp hd)
      · exact ih (by simp) ln h2
  | case5 c rest acc hne hlb ih =>
      intro hacc ln hln
      rw [splitlinesAux.eq_3 _ _ _ hne, if_neg hlb] at hln
      refine ih ?_ ln hln
      intro d hd
      rcases List.mem_cons.mp hd with h2 | h2
      · subst h2
        cases hdd : isLineBreak d
        · rfl
        · exact absurd hdd hlb
      · exact hacc d h2

theorem splitlines_mem_no_break {s ln : Str} (h : ln ∈ splitlines s) :
    ∀ c ∈ ln, isLineBreak c = false :=
  splitlinesAux_mem_no_break s [] (by simp) ln h

theorem splitlinesAux_append_nl (l : Str)
    (hl : ∀ c ∈ l, isLineBreak c = false) :
    ∀ (s acc : Str),
      splitlinesAux (l ++ '\n' :: s) acc =
        (acc.reverse ++ l) :: splitlinesAux s [] := by
  induction l with
  | nil =>
      intro s acc
      rw [List.nil_append, splitlinesAux.eq_3]
      · rw [if_pos (by decide)]
        simp
      · intro r h1 _
        exact absurd h1 (by decide)
  | cons c l' ih =>
      intro s acc
      have hc : isLineBreak c = false := hl c (List.mem_cons_self _ _)
      have hcr : ¬ c = '\r' := by
        intro hh
        subst hh
        simp [isLineBreak] at hc
      rw [List.cons_append, splitlinesAux.eq_3]
      · rw [if_neg (by simp [hc])]
        rw [ih (fun x hx => hl x (List.mem_cons_of_mem _ hx)) s (c :: acc)]
        simp
      · intro r h1 _
        exact hcr h1

theorem splitlinesAux_no_break (l : Str)
    (hl : ∀ c ∈ l, isLineBreak c = false) :
    ∀ acc : Str, splitlinesAux l acc =
      if (acc.reverse ++ l).isEmpty then [] else [acc.reverse ++ l] := by
  induction l with
  | nil =>
      intro acc
      rw [splitlinesAux.eq_1]
      rcases acc with _ | ⟨a, as⟩
      · simp
      · simp
  | cons c l' ih =>
      intro acc
      have hc : isLineBreak c = false := hl c (List.mem_cons_self _ _)
      rw [splitlinesAux.eq_3]
      · rw [if_neg (by simp [hc])]
        rw [ih (fun x hx => hl x (List.mem_cons_of_mem _ hx)) (c :: acc)]
        simp
      · intro r h1 _
        subst h1
        simp [isLineBreak] at hc

theorem splitlines_no_break {l : Str}
    (hl : ∀ c ∈ l, isLineBreak c = false) (hne : l ≠ []) :
    splitlines l = [l] := by
  unfold splitlines
  rw [splitlinesAux_no_break l hl []]
  simp [hne]

theorem joinNl_cons (l : Str) (ls : List Str) (h : ls ≠ []) :
    joinNl (l :: ls) = l ++ '\n' :: joinNl ls := by
  cases ls with
  | nil => exact absurd rfl h
  | cons m ms => rfl

theorem splitlines_joinNl :
    ∀ G : List Str, (∀ ln ∈ G, ∀ c ∈ ln, isLineBreak c = false) →
      G.getLast? ≠ some [] → splitlines (joinNl G) = G := by
  intro G
  induction G with
  | nil => intro _ _; rfl
  | cons l ls ih =>
      intro hG hlast
      cases ls with
      | nil =>
          have hne : l ≠ [] := by
            intro hh
            subst hh
            exact hlast rfl
          exact splitlines_no_break (hG l (List.mem_cons_self _ _)) hne
      | cons m ms =>
          rw [joinNl_cons _ _ (by simp)]
          unfold splitlines
          rw [splitlinesAux_append_nl l (hG l (List.mem_cons_self _ _)) _ []]
          simp only [List.reverse_nil, List.nil_append]
          have h2 : splitlines (joinNl (m :: ms)) = m :: ms := by
            refine ih (fun x hx => hG x (List.mem_cons_of_mem _ hx)) ?_
            simpa [List.getLast?_cons_cons] using hlast
          rw [show splitlinesAux (joinNl (m :: ms)) [] =
            splitlines (joinNl (m :: ms)) from rfl, h2]

theorem lstrip_joinNl :
    ∀ F : List Str, lstrip (joinNl F) = joinNl (ltrimLines F) := by
  intro F
  induction F with
  | nil => rfl
  | cons l ls ih =>
      cases ls with
      | nil =>
          show lstrip l = joinNl (ltrimLines [l])
          by_cases h : allWS l
          · simp [ltrimLines, h, lstrip_eq_nil_iff.mpr h]
            rfl
          · simp [ltrimLines, h]
            rfl
      | cons m ms =>
          rw [joinNl_cons _ _ (by simp), lstrip_append]
          by_cases h : allWS l
          · rw [if_pos h]
            have h2 : lstrip ('\n' :: joinNl (m :: ms)) =
                lstrip (joinNl (m :: ms)) := by
              simp [lstrip, List.dropWhile_cons, isPySpace]
            rw [h2, ih]
            simp [ltrimLines, h]
          · rw [if_neg h]
            simp only [ltrimLines, h, if_false, Bool.false_eq_true]
            rw [joinNl_cons (lstrip l) (m :: ms) (by simp)]

theorem rstrip_cons_of_not_allWS (c : Char) (x : Str)
    (h : allWS x = false) : rstrip (c :: x) = c :: rstrip x := by
  have h2 := rstrip_append [c] x
  rw [if_neg (by simp [h])] at h2
  simpa using h2

theorem rtrimLines_getLast_ne_nil :
    ∀ G : List Str, (rtrimLines G).getLast? ≠ some [] := by
  intro G
  induction G with
  | nil => simp [rtrimLines]
  | cons l ls ih =>
      unfold rtrimLines
      cases hr : rtrimLines ls with
      | nil =>
          by_cases h : allWS l
          · simp [h]
          · simp [h]
            intro hh
            exact h (rstrip_eq_nil_iff.mp hh)
      | cons r rs =>
          simp only [List.getLast?_cons_cons]
          rw [← hr]
          exact ih

theorem joinNl_ne_nil_of_getLast (r : Str) (rs : List Str)
    (h : (r :: rs).getLast? ≠ some []) : joinNl (r :: rs) ≠ [] := by
  cases rs with
  | nil =>
      intro hh
      apply h
      have h2 : r = [] := hh
      subst h2
      rfl
  | cons m ms =>
      rw [joinNl_cons _ _ (by simp)]
      simp

theorem rstrip_joinNl :
    ∀ F : List Str, rstrip (joinNl F) = joinNl (rtrimLines F) := by
  intro F
  induction F with
  | nil => rfl
  | cons l ls ih =>
      cases hls : ls with
      | nil =>
          show rstrip l = joinNl (rtrimLines [l])
          by_cases h : allWS l
          · simp [rtrimLines, h, rstrip_eq_nil_iff.mpr h]
            rfl
          · simp [rtrimLines, h]
            rfl
      | cons m ms =>
          rw [hls] at ih
          rw [joinNl_cons _ _ (by simp), rstrip_append]
          unfold rtrimLines
          cases hr : rtrimLines (m :: ms) with
          | nil =>
              rw [hr] at ih
              have hws : allWS (joinNl (m :: ms)) = true :=
                rstrip_eq_nil_iff.mp ih
              have hb : allWS ('\n' :: joinNl (m :: ms)) = true := by
                simp [allWS, List.all_cons] at hws ⊢
                exact ⟨by simp [isPySpace], hws⟩
              rw [if_pos hb]
              by_cases h : allWS l
              · simp [h, rstrip_eq_nil_iff.mpr h]
                rfl
              · simp [h]
                rfl
          | cons r rs =>
              rw [hr] at ih
              have hne : joinNl (r :: rs) ≠ [] := by
                apply joinNl_ne_nil_of_getLast
                rw [← hr]
                exact rtrimLines_getLast_ne_nil _
              have hws : allWS (joinNl (m :: ms)) = false := by
                cases hh : allWS (joinNl (m :: ms))
                · rfl
                · exact absurd (ih ▸ rstrip_eq_nil_iff.mpr hh) hne
              have hb : allWS ('\n' :: joinNl (m :: ms)) = false := by
                simp [allWS, List.all_cons] at hws ⊢
                intro _
                exact hws
              rw [if_neg (by simp [hb])]
              rw [rstrip_cons_of_not_allWS _ _ hws, ih]
              rw [joinNl_cons l (r :: rs) (by simp)]

theorem mem_ltrimLines : ∀ {F : List Str} {ln : Str}, ln ∈ ltrimLines F →
    ∃ ln' ∈ F, ∃ a : Str, (∀ c ∈ a, isPySpace c = true) ∧ ln' = a ++ ln := by
  intro F
  induction F with
  | nil =>
      intro ln h
      simp [ltrimLines] at h
  | cons l ls ih =>
      intro ln h
      unfold ltrimLines at h
      by_cases hw : allWS l
      · rw [if_pos hw] at h
        obtain ⟨ln', h1, a, h2, h3⟩ := ih h
        exact ⟨ln', List.mem_cons_of_mem _ h1, a, h2, h3⟩
      · rw [if_neg hw] at h
        rcases List.mem_cons.mp h with h1 | h1
        · subst h1
          refine ⟨l, List.mem_cons_self _ _, l.takeWhile isPySpace, ?_, ?_⟩
          · intro c hc
            exact List.mem_takeWhile_imp hc
          · rw [show lstrip l = l.dropWhile isPySpace from rfl,
              List.takeWhile_append_dropWhile]
        · exact ⟨ln, List.mem_cons_of_mem _ h1, [], by simp, by simp⟩

theorem mem_rtrimLines : ∀ {G : List Str} {ln : Str}, ln ∈ rtrimLines G →
    ∃ ln' ∈ G, ∃ b : Str, (∀ c ∈ b, isPySpace c = true) ∧ ln' = ln ++ b := by
  intro G
  induction G with
  | nil =>
      intro ln h
      simp [rtrimLines] at h
  | cons l ls ih =>
      intro ln h
      unfold rtrimLines at h
      cases hr : rtrimLines ls with
      | nil =>
          rw [hr] at h
          by_cases hw : allWS l
          · rw [if_pos hw] at h
            simp at h
          · rw [if_neg hw] at h
            simp at h
            subst h
            refine ⟨l, List.mem_cons_self _ _,
              (l.reverse.takeWhile isPySpace).reverse, ?_, ?_⟩
            · intro c hc
              exact List.mem_takeWhile_imp (List.mem_reverse.mp hc)
            · have hsplit := List.takeWhile_append_dropWhile
                (p := isPySpace) (l := l.reverse)
              conv_lhs => rw [← l.reverse_reverse, ← hsplit]
              rw [List.reverse_append]
              rfl
      | cons r rs =>
          rw [hr] at h
          rcases List.mem_cons.mp h with h1 | h1
          · subst h1
            exact ⟨ln, List.mem_cons_self _ _, [], by simp, by simp⟩
          · rw [← hr] at h1
            obtain ⟨ln', h2, b, h3, h4⟩ := ih h1
            exact ⟨ln', List.mem_cons_of_mem _ h2, b, h3, h4⟩

theorem mem_trim_pad {F : List Str} {ln : Str}
    (h : ln ∈ rtrimLines (ltrimLines F)) :
    ∃ ln' ∈ F, ∃ a b : Str, (∀ c ∈ a, isPySpace c = true) ∧
      (∀ c ∈ b, isPySpace c = true) ∧ ln' = a ++ ln ++ b := by
  obtain ⟨ln2, h2, b, hb, hb2⟩ := mem_rtrimLines h
  obtain ⟨ln', h3, a, ha, ha2⟩ := mem_ltrimLines h2
  refine ⟨ln', h3, a, b, ha, hb, ?_⟩
  rw [ha2, hb2, List.append_assoc]

theorem splitlines_pyStrip_joinNl {F : List Str}
    (hF : ∀ ln ∈ F, ∀ c ∈ ln, isLineBreak c = false) :
    splitlines (pyStrip (joinNl F)) = rtrimLines (ltrimLines F) := by
  have h1 : pyStrip (joinNl F) = joinNl (rtrimLines (ltrimLines F)) := by
    unfold pyStrip
    rw [lstrip_joinNl, rstrip_joinNl]
  rw [h1]
  apply splitlines_joinNl
  · intro ln hln c hc
    obtain ⟨ln', h2, a, b, _, _, h5⟩ := mem_trim_pad hln
    refine hF ln' h2 c ?_
    rw [h5]
    simp
    exact Or.inr (Or.inl hc)
  · exact rtrimLines_getLast_ne_nil _

/-! ## Lemmas about the keyword search -/

theorem isWordChar_false_of_space {c : Char} (h : isPySpace c = true) :
    isWordChar c = false := by
  unfold isPySpace at h
  simp only [Bool.or_eq_true, decide_eq_true_eq] at h
  rcases h with ((((h | h) | h) | h) | h) | h
  all_goals subst h
  all_goals decide

theorem keywordSearchAux_congr_prev (s : Str) (p1 p2 : Option Char)
    (h : boundaryBefore p1 = boundaryBefore p2) :
    keywordSearchAux p1 s = keywordSearchAux p2 s := by
  cases s with
  | nil => rfl
  | cons c rest => simp [keywordSearchAux, h]

theorem matchToks_append {alt : List RTok} {s r b : Str}
    (h : matchToks alt s = some r) :
    matchToks alt (s ++ b) = some (r ++ b) := by
  induction alt generalizing s with
  | nil =>
      unfold matchToks at h ⊢
      have h2 : s = r := by simpa using h
      rw [h2]
  | cons t ts ih =>
      cases s with
      | nil =>
          exfalso
          cases t
          all_goals simp [matchToks] at h
      | cons c cs =>
          rw [List.cons_append]
          cases t with
          | lit p =>
              unfold matchToks at h ⊢
              by_cases hp : p = c.toLower
              · rw [if_pos hp] at h ⊢
                exact ih h
              · rw [if_neg hp] at h
                exact absurd h (by simp)
          | digit =>
              unfold matchToks at h ⊢
              by_cases hp : c.isDigit
              · rw [if_pos hp] at h ⊢
                exact ih h
              · rw [if_neg hp] at h
                exact absurd h (by simp)

theorem altMatchesAt_append {s b : Str}
    (hb : ∀ c, b.head? = some c → isWordChar c = false)
    (h : altMatchesAt s = true) : altMatchesAt (s ++ b) = true := by
  unfold altMatchesAt at h ⊢
  rw [List.any_eq_true] at h ⊢
  obtain ⟨alt, halt, hm⟩ := h
  refine ⟨alt, halt, ?_⟩
  cases hmt : matchToks alt s with
  | none =>
      rw [hmt] at hm
      simp at hm
  | some r =>
      rw [hmt] at hm
      simp only at hm
      rw [matchToks_append hmt]
      simp only
      cases r with
      | nil =>
          cases b with
          | nil => rfl
          | cons x xs =>
              simp only [List.nil_append, wordBoundaryAfter]
              rw [hb x rfl]
              rfl
      | cons x xs => simpa [wordBoundaryAfter] using hm

theorem keywordSearch_append_right {s b : Str} (prev : Option Char)
    (hb : ∀ c, b.head? = some c → isWordChar c = false)
    (h : keywordSearchAux prev s = true) :
    keywordSearchAux prev (s ++ b) = true := by
  induction s generalizing prev with
  | nil => simp [keywordSearchAux] at h
  | cons c rest ih =>
      rw [List.cons_append]
      unfold keywordSearchAux at h ⊢
      rw [Bool.or_eq_true] at h ⊢
      rcases h with h | h
      · left
        rw [Bool.and_eq_true] at h ⊢
        exact ⟨h.1, altMatchesAt_append hb h.2⟩
      · right
        exact ih (some c) h

theorem keywordSearch_append_left {s : Str} (a : Str)
    (ha : ∀ c ∈ a, isPySpace c = true)
    (h : containsVisualKeyword s = true) :
    containsVisualKeyword (a ++ s) = true := by
  induction a with
  | nil => simpa using h
  | cons c a' ih =>
      have hws : isPySpace c = true := ha c (List.mem_cons_self _ _)
      have ih2 := ih fun x hx => ha x (List.mem_cons_of_mem _ hx)
      unfold containsVisualKeyword at ih2 ⊢
      rw [List.cons_append]
      cases hrest : a' ++ s with
      | nil => rw [hrest] at ih2; simp [keywordSearchAux] at ih2
      | cons d ds =>
          unfold keywordSearchAux
          rw [Bool.or_eq_true]
          right
          rw [← hrest]
          rw [keywordSearchAux_congr_prev (a' ++ s) (some c) none
            (by simp [boundaryBefore, isWordChar_false_of_space hws])]
          exact ih2

theorem containsVisualKeyword_padded {ln a b : Str}
    (ha : ∀ c ∈ a, isPySpace c = true) (hb : ∀ c ∈ b, isPySpace c = true)
    (h : containsVisualKeyword ln = true) :
    containsVisualKeyword (a ++ ln ++ b) = true := by
  have h1 : containsVisualKeyword (ln ++ b) = true := by
    refine keywordSearch_append_right none ?_ h
    intro c hc
    apply isWordChar_false_of_space
    apply hb
    cases b with
    | nil => simp at hc
    | cons x xs =>
        simp at hc
        subst hc
        exact List.mem_cons_self _ _
  rw [List.append_assoc]
  exact keywordSearch_append_left a ha h1

/-! ## Lemmas about the cleaner -/

theorem remove_visual_eq (x : Str) (hx : x.isEmpty = false) :
    remove_visual_lines_from_post x =
      pyStrip (joinNl ((splitlines x).filter
        fun ln => !containsVisualKeyword ln)) := by
  unfold remove_visual_lines_from_post
  rw [if_neg (by simp [hx])]

theorem mem_splitlines_remove_visual {x ln : Str}
    (h : ln ∈ splitlines (remove_visual_lines_from_post x)) :
    containsVisualKeyword ln = false := by
  by_cases hx : x.isEmpty
  · unfold remove_visual_lines_from_post at h
    rw [if_pos hx] at h
    simp [splitlines, splitlinesAux] at h
  · rw [remove_visual_eq x (by simp [hx])] at h
    have hFno : ∀ l2 ∈ (splitlines x).filter
        (fun l => !containsVisualKeyword l), ∀ c ∈ l2, isLineBreak c = false := by
      intro l2 h2 c hc
      exact splitlines_mem_no_break (List.mem_of_mem_filter h2) c hc
    rw [splitlines_pyStrip_joinNl hFno] at h
    obtain ⟨ln', hmem, a, b, ha, hb2, heq⟩ := mem_trim_pad h
    have hkw : containsVisualKeyword ln' = false := by
      have h3 := List.of_mem_filter hmem
      simpa using h3
    cases hk : containsVisualKeyword ln
    · rfl
    · exfalso
      have h4 := containsVisualKeyword_padded ha hb2 hk
      rw [← heq] at h4
      rw [h4] at hkw
      exact Bool.true_eq_false ▸ hkw

theorem remove_visual_idem (x : Str) :
    remove_visual_lines_from_post (remove_visual_lines_from_post x) =
      remove_visual_lines_from_post x := by
  by_cases hx : x.isEmpty
  · unfold remove_visual_lines_from_post
    rw [if_pos hx]
    rfl
  · cases hyE : (remove_visual_lines_from_post x).isEmpty with
    | true =>
        rw [List.isEmpty_iff.mp hyE]
        rfl
    | false =>
        rw [remove_visual_eq (remove_visual_lines_from_post x) hyE]
        have hfilter : (splitlines (remove_visual_lines_from_post x)).filter
            (fun ln => !containsVisualKeyword ln) =
            splitlines (remove_visual_lines_from_post x) := by
          apply List.filter_eq_self.mpr
          intro l hl
          simp [mem_splitlines_remove_visual hl]
        rw [hfilter]
        have hFno : ∀ l2 ∈ (splitlines x).filter
            (fun ln => !containsVisualKeyword ln), ∀ c ∈ l2,
            isLineBreak c = false := by
          intro l2 h2 c hc
          exact splitlines_mem_no_break (List.mem_of_mem_filter h2) c hc
        have hPS : pyStrip (joinNl ((splitlines x).filter
            (fun ln => !containsVisualKeyword ln))) =
            joinNl (rtrimLines (ltrimLines ((splitlines x).filter
              (fun ln => !containsVisualKeyword ln)))) := by
          unfold pyStrip
          rw [lstrip_joinNl, rstrip_joinNl]
        rw [remove_visual_eq x (by simp [hx]),
          splitlines_pyStrip_joinNl hFno, ← hPS, pyStrip_idem]

/-! ## Lemmas about the splitter -/

theorem split_post_stripped (raw : Str) :
    pyStrip (split_post_and_visuals raw).1 = (split_post_and_visuals raw).1 := by
  unfold split_post_and_visuals
  dsimp only
  split
  · rfl
  · split
    · exact remove_visual_stripped _
    · split
      · exact remove_visual_stripped _
      · split
        · exact remove_visual_stripped _
        · exact remove_visual_stripped _

theorem split_visuals_stripped (raw : Str) :
    pyStrip (split_post_and_visuals raw).2 = (split_post_and_visuals raw).2 := by
  unfold split_post_and_visuals
  dsimp only
  split
  · rfl
  · split
    · exact pyStrip_idem _
    · split
      · exact pyStrip_idem _
      · split
        · exact pyStrip_idem _
        · rfl

theorem split_post_clean_fixpoint (raw : Str) :
    remove_visual_lines_from_post (split_post_and_visuals raw).1 =
      (split_post_and_visuals raw).1 := by
  unfold split_post_and_visuals
  dsimp only
  split
  · rfl
  · split
    · exact remove_visual_idem _
    · split
      · exact remove_visual_idem _
      · split
        · exact remove_visual_idem _
        · exact remove_visual_idem _

theorem ciDrop_isSome_iff_ciPrefix (pat s : Str) :
    (ciDrop pat s).isSome = ciPrefix pat s := by
  induction pat generalizing s with
  | nil => rfl
  | cons p ps ih =>
      cases s with
      | nil => rfl
      | cons c cs =>
          unfold ciDrop ciPrefix
          by_cases hp : p = c.toLower
          · rw [if_pos hp]
            simp [hp, ih]
          · rw [if_neg hp]
            simp [hp]

theorem toLower_ne_v_of_space {d : Char} (h : isPySpace d = true) :
    ¬ ('v' : Char) = d.toLower := by
  unfold isPySpace at h
  simp only [Bool.or_eq_true, decide_eq_true_eq] at h
  rcases h with ((((h | h) | h) | h) | h) | h
  all_goals subst h
  all_goals decide

theorem findNlVisuals_none_of_header_none :
    ∀ (t : Str) (i j : Nat) (prev : Option Char),
      findVisualsHeader i prev t = none → findNlVisuals j t = none := by
  intro t
  induction t with
  | nil => intro i j prev _; rfl
  | cons c rest ih =>
      intro i j prev h
      unfold findVisualsHeader at h
      by_cases hcond :
          ((prev.isNone || prev == some '\n') && visualsHeaderAt (c :: rest)) = true
      · rw [if_pos hcond] at h
        exact absurd h (by simp)
      · rw [if_neg hcond] at h
        unfold findNlVisuals
        by_cases hc : (decide (c = '\n') && ciPrefix ("visuals".data) rest) = true
        · exfalso
          rw [Bool.and_eq_true] at hc
          obtain ⟨hc1, hc2⟩ := hc
          have hc1' : c = '\n' := by simpa using hc1
          subst hc1'
          cases rest with
          | nil => simp [ciPrefix] at hc2
          | cons d ds =>
              have hd : ('v' : Char) = d.toLower := by
                have h5 : (('v' = d.toLower : Bool) &&
                    ciPrefix (['i', 's', 'u', 'a', 'l', 's']) ds) = true := hc2
                rw [Bool.and_eq_true] at h5
                simpa using h5.1
              have hdws : isPySpace d = false := by
                cases hh : isPySpace d
                · rfl
                · exact absurd hd (toLower_ne_v_of_space hh)
              have hva : visualsHeaderAt (d :: ds) = true := by
                unfold visualsHeaderAt
                rw [List.dropWhile_cons, if_neg (by simp [hdws])]
                rw [ciDrop_isSome_iff_ciPrefix]
                exact hc2
              unfold findVisualsHeader at h
              cases ds with
              | nil =>
                  rw [if_pos (by simp [hva])] at h
                  simp at h
              | cons e es =>
                  rw [if_pos (by simp [hva])] at h
                  simp at h
        · rw [if_neg hc]
          exact ih (i + 1) (j + 1) (some c) h

theorem trailingScanFrom_eq_some {lines : List Str} {i : Nat} :
    ∀ (k n : Nat), i ≤ n → n < i + k →
      trailingTrigger (lines.getD i []) = true →
      (∀ j, i < j → j ≤ n → trailingTrigger (lines.getD j []) = false) →
      trailingScanFrom lines n k = some i := by
  intro k
  induction k with
  | zero =>
      intro n h1 h2 _ _
      omega
  | succ k ih =>
      intro n h1 h2 ht hmax
      unfold trailingScanFrom
      by_cases hni : n = i
      · subst hni
        rw [if_pos ht]
      · have hlt : i < n := lt_of_le_of_ne h1 (Ne.symm hni)
        have hfalse : trailingTrigger (lines.getD n []) = false :=
          hmax n hlt le_rfl
        rw [if_neg (by rw [hfalse]; simp)]
        cases n with
        | zero => omega
        | succ m =>
            exact ih m (by omega) (by omega) ht
              (fun j hj1 hj2 => hmax j hj1 (by omega))

theorem trailingScan_eq_some {lines : List Str} {i : Nat}
    (h1 : i < lines.length) (h2 : lines.length ≤ i + 7)
    (ht : trailingTrigger (lines.getD i []) = true)
    (hmax : ∀ j, i < j → j < lines.length →
      trailingTrigger (lines.getD j []) = false) :
    trailingScan lines = some i := by
  unfold trailingScan
  cases hn : lines.length with
  | zero => omega
  | succ n =>
      apply trailingScanFrom_eq_some
      · omega
      · rcases Nat.le_total (n + 1) 7 with hh | hh
        · rw [Nat.min_eq_left hh]
          omega
        · rw [Nat.min_eq_right hh]
          omega
      · exact ht
      · intro j hj1 hj2
        exact hmax j hj1 (by omega)

/-! ## Sublist lemmas: every transformation only deletes material -/

theorem pyStrip_sublist (s : Str) : pyStrip s <+ s :=
  ((rstrip_prefix_self (lstrip s)).sublist).trans ((lstrip_suffix s).sublist)

theorem ciDrop_suffix {pat s r : Str} (h : ciDrop pat s = some r) :
    r <:+ s := by
  induction pat generalizing s with
  | nil =>
      unfold ciDrop at h
      have h2 : s = r := by simpa using h
      rw [h2]
  | cons p ps ih =>
      cases s with
      | nil => simp [ciDrop] at h
      | cons c cs =>
          unfold ciDrop at h
          by_cases hp : p = c.toLower
          · rw [if_pos hp] at h
            exact (ih h).trans (List.suffix_cons c cs)
          · rw [if_neg hp] at h
            simp at h

theorem optIm_suffix (s2 : Str) : optIm s2 <:+ s2 := by
  unfold optIm
  cases h : ciDrop ("/image options".data) s2 with
  | none => exact List.suffix_refl _
  | some r => exact ciDrop_suffix h

theorem optColonDash_suffix (s : Str) : optColonDash s <:+ s := by
  cases s with
  | nil => exact List.suffix_refl _
  | cons c r =>
      unfold optColonDash
      dsimp only
      by_cases h : (c = ':' || c = '-') = true
      · rw [if_pos h]
        exact List.suffix_cons c r
      · rw [if_neg h]

theorem visHeaderMatch_suffix {s r : Str} (h : visHeaderMatch s = some r) :
    r <:+ s := by
  unfold visHeaderMatch at h
  cases hcd : ciDrop ("visuals".data) (s.dropWhile isPySpace) with
  | none =>
      rw [hcd] at h
      exact absurd h (by simp)
  | some s2 =>
      rw [hcd] at h
      have hr : r =
          (optColonDash ((optIm s2).dropWhile isPySpace)).dropWhile
            isPySpace := by
        simpa using h.symm
      rw [hr]
      calc (optColonDash ((optIm s2).dropWhile isPySpace)).dropWhile isPySpace
          <:+ optColonDash ((optIm s2).dropWhile isPySpace) :=
            List.dropWhile_suffix _
        _ <:+ (optIm s2).dropWhile isPySpace := optColonDash_suffix _
        _ <:+ optIm s2 := List.dropWhile_suffix _
        _ <:+ s2 := optIm_suffix _
        _ <:+ s.dropWhile isPySpace := ciDrop_suffix hcd
        _ <:+ s := List.dropWhile_suffix _

theorem postLabelMatch_suffix {s r : Str} (h : postLabelMatch s = some r) :
    r <:+ s := by
  unfold postLabelMatch at h
  cases hcd : ciDrop ("post".data) (s.dropWhile isPySpace) with
  | none =>
      rw [hcd] at h
      exact absurd h (by simp)
  | some s2 =>
      rw [hcd] at h
      have hr : r = (optColonDash (s2.dropWhile isPySpace)).dropWhile
          isPySpace := by
        simpa using h.symm
      rw [hr]
      calc (optColonDash (s2.dropWhile isPySpace)).dropWhile isPySpace
          <:+ optColonDash (s2.dropWhile isPySpace) := List.dropWhile_suffix _
        _ <:+ s2.dropWhile isPySpace := optColonDash_suffix _
        _ <:+ s2 := List.dropWhile_suffix _
        _ <:+ s.dropWhile isPySpace := ciDrop_suffix hcd
        _ <:+ s := List.dropWhile_suffix _

theorem subAllAux_sublist (matchFn : Str → Option Str)
    (hm : ∀ s r, matchFn s = some r → r <:+ s) :
    ∀ (fuel : Nat) (prev : Option Char) (s : Str),
      subAllAux matchFn fuel prev s <+ s := by
  intro fuel
  induction fuel with
  | zero =>
      intro prev s
      exact List.Sublist.refl _
  | succ fuel ih =>
      intro prev s
      cases s with
      | nil => exact List.Sublist.refl _
      | cons c rest =>
          unfold subAllAux
          by_cases h1 : (prev.isNone || prev == some '\n') = true
          · rw [if_pos h1]
            cases hmf : matchFn (c :: rest) with
            | some r =>
                dsimp only
                exact (ih _ r).trans (hm _ _ hmf).sublist
            | none =>
                dsimp only
                exact List.Sublist.cons₂ c (ih _ rest)
          · rw [if_neg h1]
            exact List.Sublist.cons₂ c (ih _ rest)

theorem subAll_sublist (matchFn : Str → Option Str)
    (hm : ∀ s r, matchFn s = some r → r <:+ s) (s : Str) :
    subAll matchFn s <+ s :=
  subAllAux_sublist matchFn hm s.length none s

theorem joinNl_splitlinesAux_sublist :
    ∀ (s acc : Str), (∀ c ∈ s, isLineBreak c = true → c = '\n') →
      joinNl (splitlinesAux s acc) <+ acc.reverse ++ s := by
  intro s acc
  induction s, acc using splitlinesAux.induct with
  | case1 acc h1 =>
      intro _
      rw [splitlinesAux.eq_1, if_pos h1]
      exact List.nil_sublist _
  | case2 acc h1 =>
      intro _
      rw [splitlinesAux.eq_1, if_neg h1]
      show acc.reverse <+ acc.reverse ++ []
      simp
  | case3 rest acc ih =>
      intro hs
      exfalso
      have h2 := hs '\r' (by simp) (by decide)
      exact absurd h2 (by decide)
  | case4 c rest acc hne hlb ih =>
      intro hs
      have hcn : c = '\n' := hs c (List.mem_cons_self _ _) hlb
      subst hcn
      rw [splitlinesAux.eq_3 _ _ _ hne, if_pos hlb]
      have ihr := ih fun x hx hlbx => hs x (List.mem_cons_of_mem _ hx) hlbx
      simp only [List.reverse_nil, List.nil_append] at ihr
      cases hA : splitlinesAux rest [] with
      | nil =>
          show joinNl [acc.reverse] <+ acc.reverse ++ '\n' :: rest
          exact List.sublist_append_left _ _
      | cons x xs =>
          rw [joinNl_cons _ _ (by simp)]
          apply List.Sublist.append_left
          apply List.Sublist.cons₂
          rw [← hA]
          exact ihr
  | case5 c rest acc hne hlb ih =>
      intro hs
      rw [splitlinesAux.eq_3 _ _ _ hne, if_neg hlb]
      have ihr := ih fun x hx hlbx => hs x (List.mem_cons_of_mem _ hx) hlbx
      simpa [List.reverse_cons, List.append_assoc] using ihr

theorem joinNl_splitlines_sublist {s : Str}
    (hs : ∀ c ∈ s, isLineBreak c = true → c = '\n') :
    joinNl (splitlines s) <+ s := by
  have h := joinNl_splitlinesAux_sublist s [] hs
  simpa using h

theorem joinNl_sublist_cons (l : Str) (L : List Str) :
    joinNl L <+ joinNl (l :: L) := by
  cases L with
  | nil => exact List.nil_sublist _
  | cons m ms =>
      rw [joinNl_cons l (m :: ms) (by simp)]
      have h : l ++ '\n' :: joinNl (m :: ms) =
          (l ++ ['\n']) ++ joinNl (m :: ms) := by
        simp
      rw [h]
      exact List.sublist_append_right _ _

theorem joinNl_filter_sublist (q : Str → Bool) :
    ∀ L : List Str, joinNl (L.filter q) <+ joinNl L := by
  intro L
  induction L with
  | nil => simp
  | cons l L' ih =>
      by_cases hq : q l
      · rw [List.filter_cons_of_pos hq]
        cases L' with
        | nil => simp
        | cons m ms =>
            cases hF : (m :: ms).filter q with
            | nil =>
                rw [joinNl_cons l (m :: ms) (by simp)]
                show joinNl [l] <+ l ++ '\n' :: joinNl (m :: ms)
                exact List.sublist_append_left _ _
            | cons x xs =>
                rw [joinNl_cons l (x :: xs) (by simp),
                  joinNl_cons l (m :: ms) (by simp)]
                apply List.Sublist.append_left
                apply List.Sublist.cons₂
                rw [← hF]
                exact ih
      · rw [List.filter_cons_of_neg hq]
        exact ih.trans (joinNl_sublist_cons l L')

theorem remove_visual_sublist {y : Str}
    (hy : ∀ c ∈ y, isLineBreak c = true → c = '\n') :
    remove_visual_lines_from_post y <+ y := by
  cases hyE : y.isEmpty with
  | true =>
      rw [List.isEmpty_iff.mp hyE]
      exact List.Sublist.refl _
  | false =>
      rw [remove_visual_eq y hyE]
      exact ((pyStrip_sublist _).trans (joinNl_filter_sublist _ _)).trans
        (joinNl_splitlines_sublist hy)

/-! ## Lemmas about the generation loop -/

theorem errorPlaceholder_ne_nil (e tb : Str) : errorPlaceholder e tb ≠ [] := by
  unfold errorPlaceholder
  have h : ("[Error generating draft: ".data) =
      '[' :: ("Error generating draft: ".data) := by decide
  rw [h]
  simp

theorem errorPlaceholder_isEmpty (e tb : Str) :
    (errorPlaceholder e tb).isEmpty = false := by
  cases h : (errorPlaceholder e tb).isEmpty
  · rfl
  · exact absurd (List.isEmpty_iff.mp h) (errorPlaceholder_ne_nil e tb)

theorem errorPlaceholder_infix (e tb : Str) : e <:+: errorPlaceholder e tb :=
  ⟨("[Error generating draft: ".data), ("]\n\n".data) ++ tb, by
    simp [errorPlaceholder]⟩

/-- First unrolling of the attempt loop: the first completion call. -/
theorem runDraft_unfold (complete : Nat → Request → CallResult)
    (req : Request) :
    runDraft complete req =
      (match complete 1 req with
      | CallResult.failure e tb => (errorPlaceholder e tb, [] ++ [req])
      | CallResult.success t =>
          if is_incomplete_text (processResponse t) && decide (1 < 2) then
            attemptLoop complete req 1 1 [] ([] ++ [req])
          else (processResponse t, [] ++ [req])) := rfl

/-- Second unrolling of the attempt loop: the retry call. -/
theorem attemptLoop_retry_unfold (complete : Nat → Request → CallResult)
    (req : Request) :
    attemptLoop complete req 1 1 [] ([] ++ [req]) =
      (match complete 2 req with
      | CallResult.failure e tb => (errorPlaceholder e tb, [req] ++ [req])
      | CallResult.success t =>
          if is_incomplete_text (processResponse t) && decide (2 < 2) then
            attemptLoop complete req 0 2 [] ([req] ++ [req])
          else (processResponse t, [req] ++ [req])) := rfl

theorem runDraft_failure1 {complete : Nat → Request → CallResult}
    {req : Request} {e tb : Str}
    (h : complete 1 req = CallResult.failure e tb) :
    runDraft complete req = (errorPlaceholder e tb, [req]) := by
  rw [runDraft_unfold, h]
  rfl

theorem runDraft_complete1 {complete : Nat → Request → CallResult}
    {req : Request} {t : Str} (h : complete 1 req = CallResult.success t)
    (hc : is_incomplete_text (processResponse t) = false) :
    runDraft complete req = (processResponse t, [req]) := by
  rw [runDraft_unfold, h]
  simp [hc]

theorem runDraft_retry_failure {complete : Nat → Request → CallResult}
    {req : Request} {t e tb : Str}
    (h : complete 1 req = CallResult.success t)
    (hc : is_incomplete_text (processResponse t) = true)
    (h2 : complete 2 req = CallResult.failure e tb) :
    runDraft complete req = (errorPlaceholder e tb, [req, req]) := by
  rw [runDraft_unfold, h]
  simp only [hc, Bool.true_and, decide_True, if_true]
  rw [attemptLoop_retry_unfold, h2]
  rfl

theorem runDraft_retry_success {complete : Nat → Request → CallResult}
    {req : Request} {t u : Str}
    (h : complete 1 req = CallResult.success t)
    (hc : is_incomplete_text (processResponse t) = true)
    (h2 : complete 2 req = CallResult.success u) :
    runDraft complete req = (processResponse u, [req, req]) := by
  rw [runDraft_unfold, h]
  simp only [hc, Bool.true_and, decide_True, if_true]
  rw [attemptLoop_retry_unfold, h2]
  simp

/-! ## Claim theorems -/

/-- C1: `is_incomplete_text(text)` returns true exactly when the text is
empty or whitespace-only, or its trimmed length is under 40 characters, or
the trimmed text ends in one of the ellipsis/dash suffixes tested by the
source, or the trimmed text consists solely of bullet/whitespace
punctuation characters; in particular `is_incomplete_text` of the empty
string, of `ok`, of 40 copies of `A`, of `some long text that ends
with...`, and of `- - - * * *` evaluates to true, true, false, true, true
respectively. -/
theorem c1_is_incomplete_characterization :
    (∀ text : Str,
      is_incomplete_text text = true ↔
        (text = [] ∨ (∀ c ∈ text, isPySpace c = true) ∨
          (pyStrip text).length < 40 ∨
          incompleteSuffixes.any
            (fun suf => suf.isSuffixOf (pyStrip text)) = true ∨
          (pyStrip text).all (fun ch => junkChars.contains ch) = true)) ∧
    is_incomplete_text [] = true ∧
    is_incomplete_text ("ok".data) = true ∧
    is_incomplete_text (List.replicate 40 'A') = false ∧
    is_incomplete_text ("some long text that ends with...".data) = true ∧
    is_incomplete_text ("- - - * * *".data) = true := by
  refine ⟨?_, by decide, by decide, by decide, by decide, by decide⟩
  intro text
  simp only [is_incomplete_text]
  by_cases h0 : text.isEmpty = true
  · simp only [h0, if_true]
    constructor
    · intro _
      exact Or.inl (List.isEmpty_iff.mp h0)
    · intro _
      trivial
  · rw [if_neg h0]
    by_cases h1 : (pyStrip text).length < 40
    · rw [if_pos h1]
      exact ⟨fun _ => Or.inr (Or.inr (Or.inl h1)), fun _ => rfl⟩
    · rw [if_neg h1]
      by_cases h2 : incompleteSuffixes.any
          (fun suf => suf.isSuffixOf (pyStrip text)) = true
      · rw [if_pos h2]
        exact ⟨fun _ => Or.inr (Or.inr (Or.inr (Or.inl h2))), fun _ => rfl⟩
      · rw [if_neg h2]
        by_cases h3 : (pyStrip text).all
            (fun ch => junkChars.contains ch) = true
        · rw [if_pos h3]
          exact ⟨fun _ => Or.inr (Or.inr (Or.inr (Or.inr h3))), fun _ => rfl⟩
        · rw [if_neg h3]
          constructor
          · intro hh
            exact absurd hh (by simp)
          · intro hh
            exfalso
            rcases hh with hh | hh | hh | hh | hh
            · exact h0 (by rw [hh]; rfl)
            · exact h1 (by simp [pyStrip_eq_nil_of_all_space hh])
            · exact h1 hh
            · exact h2 hh
            · exact h3 hh

/-- Witness for C1: the characterization applied at the input `ok`. -/
theorem c1_is_incomplete_characterization_witness :
    is_incomplete_text ("ok".data) = true :=
  (c1_is_incomplete_characterization.1 ("ok".data)).mpr
    (Or.inr (Or.inr (Or.inl (by decide))))

/-- C2: when the raw text contains a line-start visuals header (matched on
step 1 at index `i` of the stripped text), split returns the cleaned text
before the header as the post (post labels stripped, keyword lines removed)
and the text from the header onward, header token stripped, as the visuals;
concretely the example of the claim splits into `Hello world.` and
`Slide 1: photo`. -/
theorem c2_split_matched_header :
    (∀ (raw : Str) (i : Nat), raw.isEmpty = false →
      findVisualsHeader 0 none (pyStrip raw) = some i →
      split_post_and_visuals raw =
        (remove_visual_lines_from_post
            (pyStrip (subAll postLabelMatch (pyStrip ((pyStrip raw).take i)))),
         pyStrip (subAll visHeaderMatch (pyStrip ((pyStrip raw).drop i))))) ∧
    split_post_and_visuals
        ("Post:\nHello world.\n\nVisuals/Image options:\nSlide 1: photo".data) =
      (("Hello world.".data), ("Slide 1: photo".data)) := by
  constructor
  · intro raw i h0 h1
    unfold split_post_and_visuals
    rw [if_neg (by simp [h0])]
    dsimp only
    rw [h1]
  · decide

/-- Witness for C2: the general statement applied at the claim's concrete
example, whose header is found at index 19. -/
theorem c2_split_matched_header_witness :
    split_post_and_visuals
        ("Post:\nHello world.\n\nVisuals/Image options:\nSlide 1: photo".data) =
      (remove_visual_lines_from_post
          (pyStrip (subAll postLabelMatch (pyStrip ((pyStrip
            ("Post:\nHello world.\n\nVisuals/Image options:\nSlide 1: photo".data)).take 19)))),
       pyStrip (subAll visHeaderMatch (pyStrip ((pyStrip
          ("Post:\nHello world.\n\nVisuals/Image options:\nSlide 1: photo".data)).drop 19)))) :=
  c2_split_matched_header.1
    ("Post:\nHello world.\n\nVisuals/Image options:\nSlide 1: photo".data) 19
    (by decide) (by decide)

/-- C6: when steps 1 and 2 find no visuals header, the last up-to-7 lines
of the stripped text are scanned from the end, and the first line found
scanning backward that triggers the bullet/keyword test marks the start of
the visuals block, everything before it (cleaned) being the post;
concretely the example of the claim splits into `Great tip today.` and
`Image idea: a sunrise photo.`. -/
theorem c6_split_trailing_heuristic :
    (∀ (raw : Str) (i : Nat), raw.isEmpty = false →
      findVisualsHeader 0 none (pyStrip raw) = none →
      findNlVisuals 0 (pyStrip raw) = none →
      i < (splitlines (pyStrip raw)).length →
      (splitlines (pyStrip raw)).length ≤ i + 7 →
      trailingTrigger ((splitlines (pyStrip raw)).getD i []) = true →
      (∀ j, i < j → j < (splitlines (pyStrip raw)).length →
        trailingTrigger ((splitlines (pyStrip raw)).getD j []) = false) →
      split_post_and_visuals raw =
        (remove_visual_lines_from_post
            (pyStrip (joinNl ((splitlines (pyStrip raw)).take i))),
         pyStrip (subAll visHeaderMatch
            (pyStrip (joinNl ((splitlines (pyStrip raw)).drop i)))))) ∧
    split_post_and_visuals
        ("Great tip today.\n\nImage idea: a sunrise photo.".data) =
      (("Great tip today.".data), ("Image idea: a sunrise photo.".data)) := by
  constructor
  · intro raw i h0 h1 h2 h3 h4 h5 h6
    unfold split_post_and_visuals
    rw [if_neg (by simp [h0])]
    dsimp only
    rw [h1, h2, trailingScan_eq_some h3 h4 h5 h6]
  · decide

/-- Witness for C6: the general statement applied at the claim's concrete
example, whose trigger line is index 2 of its three lines. -/
theorem c6_split_trailing_heuristic_witness :
    split_post_and_visuals
        ("Great tip today.\n\nImage idea: a sunrise photo.".data) =
      (remove_visual_lines_from_post
          (pyStrip (joinNl ((splitlines (pyStrip
            ("Great tip today.\n\nImage idea: a sunrise photo.".data))).take 2))),
       pyStrip (subAll visHeaderMatch
          (pyStrip (joinNl ((splitlines (pyStrip
            ("Great tip today.\n\nImage idea: a sunrise photo.".data))).drop 2))))) :=
  c6_split_trailing_heuristic.1
    ("Great tip today.\n\nImage idea: a sunrise photo.".data) 2
    (by decide) (by decide) (by decide) (by decide) (by decide) (by decide)
    (by
      intro j hj1 hj2
      exfalso
      have hlen : (splitlines (pyStrip
          ("Great tip today.\n\nImage idea: a sunrise photo.".data))).length = 3 := by
        decide
      omega)

/-- C8: for every input, every return path of split applies the cleaning
step, so no line of the returned post matches the cleaner's visual-keyword
regex (case-insensitive `visuals`, `image options`, `overlay text`,
`slide` with a digit, `carousel`, `suggestion`, `image idea`, `visual`). -/
theorem c8_post_lines_keyword_free :
    ∀ (raw ln : Str), ln ∈ splitlines (split_post_and_visuals raw).1 →
      containsVisualKeyword ln = false := by
  intro raw ln h
  have hfix := split_post_clean_fixpoint raw
  rw [← hfix] at h
  exact mem_splitlines_remove_visual h

/-- Witness for C8 at a concrete input whose post is a single line. -/
theorem c8_post_lines_keyword_free_witness :
    containsVisualKeyword ("Hello world of plain testing.".data) = false :=
  c8_post_lines_keyword_free ("Hello world of plain testing.".data)
    ("Hello world of plain testing.".data) (by decide)

/-- C10: split maps every empty or whitespace-only input to the pair of
empty strings, and on every input both outputs of split are fixed points of
stripping (no leading or trailing whitespace). -/
theorem c10_split_stripped_outputs :
    (∀ raw : Str, (∀ c ∈ raw, isPySpace c = true) →
      split_post_and_visuals raw = ([], [])) ∧
    (∀ raw : Str,
      pyStrip (split_post_and_visuals raw).1 =
        (split_post_and_visuals raw).1 ∧
      pyStrip (split_post_and_visuals raw).2 =
        (split_post_and_visuals raw).2) := by
  constructor
  · intro raw hws
    cases h0 : raw.isEmpty with
    | true =>
        unfold split_post_and_visuals
        rw [if_pos h0]
    | false =>
        have ht : pyStrip raw = [] := pyStrip_eq_nil_of_all_space hws
        unfold split_post_and_visuals
        rw [if_neg (by simp [h0])]
        dsimp only
        rw [ht]
        rfl
  · intro raw
    exact ⟨split_post_stripped raw, split_visuals_stripped raw⟩

/-- Witness for C10: the whitespace-only clause applied at a three-space
input. -/
theorem c10_split_stripped_outputs_witness :
    split_post_and_visuals ("   ".data) = ([], []) :=
  c10_split_stripped_outputs.1 ("   ".data) (by decide)

/-- C3: for every requested draft count N in {1,3,5} the generation loop
yields exactly N drafts, each computed from its own completion calls; a
draft whose first completion call raises an error receives the visible
error placeholder containing the error detail, and no failure aborts the
remaining drafts. -/
theorem c3_batch_yields_n_drafts :
    ∀ (complete : Nat → Nat → Request → CallResult) (req : Request)
      (N : Nat), (N = 1 ∨ N = 3 ∨ N = 5) →
      (runBatch complete req N).length = N ∧
      (∀ i, i < N → (runBatch complete req N).getD i [] =
        finalDraftText (complete i) req) ∧
      (∀ i e tb, i < N → complete i 1 req = CallResult.failure e tb →
        (runBatch complete req N).getD i [] = errorPlaceholder e tb ∧
        errorPlaceholder e tb ≠ [] ∧ e <:+: errorPlaceholder e tb) := by
  intro complete req N _
  have hget : ∀ i, i < N → (runBatch complete req N).getD i [] =
      finalDraftText (complete i) req := by
    intro i hi
    unfold runBatch
    rw [List.getD_eq_getElem?_getD, List.getElem?_map,
      List.getElem?_range hi]
    rfl
  refine ⟨by simp [runBatch], hget, ?_⟩
  intro i e tb hi hfail
  have hdraft : finalDraftText (complete i) req = errorPlaceholder e tb := by
    unfold finalDraftText
    rw [runDraft_failure1 hfail]
    simp [errorPlaceholder_isEmpty]
  exact ⟨by rw [hget i hi, hdraft], errorPlaceholder_ne_nil e tb,
    errorPlaceholder_infix e tb⟩

/-- Witness for C3: a batch of three drafts whose calls all fail still has
three entries and the failed draft holds the error placeholder. -/
theorem c3_batch_yields_n_drafts_witness :
    (runBatch (fun _ _ _ =>
        CallResult.failure ("boom".data) ("trace".data))
        sampleRequest 3).length = 3 ∧
    (runBatch (fun _ _ _ =>
        CallResult.failure ("boom".data) ("trace".data))
        sampleRequest 3).getD 0 [] =
      errorPlaceholder ("boom".data) ("trace".data) :=
  ⟨(c3_batch_yields_n_drafts _ sampleRequest 3 (Or.inr (Or.inl rfl))).1,
   ((c3_batch_yields_n_drafts _ sampleRequest 3 (Or.inr (Or.inl rfl))).2.2 0
      ("boom".data) ("trace".data) (by omega) rfl).1⟩

/-- C4: per draft at most two completion calls are issued and every issued
call carries the same request; a second call happens exactly when the
first call succeeds with text judged incomplete; a complete first result is
final after one call, and the retry's successful result is accepted as the
final draft even if still incomplete. -/
theorem c4_retry_policy :
    ∀ (complete : Nat → Request → CallResult) (req : Request),
      (runDraft complete req).2.length ≤ 2 ∧
      (∀ r ∈ (runDraft complete req).2, r = req) ∧
      ((runDraft complete req).2.length = 2 ↔
        ∃ t, complete 1 req = CallResult.success t ∧
          is_incomplete_text (processResponse t) = true) ∧
      (∀ t, complete 1 req = CallResult.success t →
        is_incomplete_text (processResponse t) = false →
        runDraft complete req = (processResponse t, [req])) ∧
      (∀ t u, complete 1 req = CallResult.success t →
        is_incomplete_text (processResponse t) = true →
        complete 2 req = CallResult.success u →
        runDraft complete req = (processResponse u, [req, req])) := by
  intro complete req
  cases h1 : complete 1 req with
  | failure e tb =>
      rw [runDraft_failure1 h1]
      refine ⟨by simp, by simp, ?_, ?_, ?_⟩
      · simp only [h1]
        constructor
        · intro hh
          simp at hh
        · intro ⟨t, ht, _⟩
          exact absurd ht (by simp)
      · intro t ht
        exact absurd ht (by simp)
      · intro t u ht
        exact absurd ht (by simp)
  | success t =>
      cases hinc : is_incomplete_text (processResponse t) with
      | false =>
          rw [runDraft_complete1 h1 hinc]
          refine ⟨by simp, by simp, ?_, ?_, ?_⟩
          · constructor
            · intro hh
              simp at hh
            · intro ⟨t2, ht2, hinc2⟩
              have ha : t = t2 := by
                injection ht2
              subst ha
              rw [hinc] at hinc2
              simp at hinc2
          · intro t2 ht2 _
            have ha : t = t2 := by
              injection ht2
            subst ha
            rfl
          · intro t2 u ht2 hinc2 _
            have ha : t = t2 := by
              injection ht2
            subst ha
            rw [hinc] at hinc2
            simp at hinc2
      | true =>
          cases h2 : complete 2 req with
          | failure e tb =>
              rw [runDraft_retry_failure h1 hinc h2]
              refine ⟨by simp, by simp, ?_, ?_, ?_⟩
              · exact ⟨fun _ => ⟨t, rfl, hinc⟩, fun _ => by simp⟩
              · intro t2 ht2 hinc2
                have ha : t = t2 := by
                  injection ht2
                subst ha
                rw [hinc] at hinc2
                simp at hinc2
              · intro t2 u ht2 _ hu
                exact absurd hu (by simp)
          | success u =>
              rw [runDraft_retry_success h1 hinc h2]
              refine ⟨by simp, by simp, ?_, ?_, ?_⟩
              · exact ⟨fun _ => ⟨t, rfl, hinc⟩, fun _ => by simp⟩
              · intro t2 ht2 hinc2
                have ha : t = t2 := by
                  injection ht2
                subst ha
                rw [hinc] at hinc2
                simp at hinc2
              · intro t2 u2 _ _ hu2
                have ha : u = u2 := by
                  injection hu2
                subst ha
                rfl

/-- Witness for C4: with a first call returning a long complete text the
draft is final after a single call carrying the sample request. -/
theorem c4_retry_policy_witness :
    runDraft (constOutcome (CallResult.success
        ("A complete draft text that is certainly long enough.".data)))
      sampleRequest =
      (processResponse
        ("A complete draft text that is certainly long enough.".data),
       [sampleRequest]) :=
  (c4_retry_policy (constOutcome (CallResult.success
      ("A complete draft text that is certainly long enough.".data)))
    sampleRequest).2.2.2.1
    ("A complete draft text that is certainly long enough.".data) rfl
    (by decide)

/-- C5 counterexample: a pipeline run whose completion calls all succeed
with a visuals-only response produces a draft whose stored raw text is
non-empty, yet whose displayed post text is the empty string — not a
placeholder — because the splitter assigns all content to visuals. -/
theorem c5_post_text_counterexample :
    constOutcome (CallResult.success visualsOnlyText) 1 sampleRequest =
      CallResult.success visualsOnlyText ∧
    constOutcome (CallResult.success visualsOnlyText) 2 sampleRequest =
      CallResult.success visualsOnlyText ∧
    finalDraftText (constOutcome (CallResult.success visualsOnlyText))
      sampleRequest = visualsOnlyText ∧
    visualsOnlyText ≠ [] ∧
    pipelinePostText (finalDraftText
      (constOutcome (CallResult.success visualsOnlyText)) sampleRequest) =
      [] := by
  exact ⟨rfl, rfl, by decide, by decide, by decide⟩

/-- C5 amended: every draft's stored raw text is non-empty — a failed
first call stores the error placeholder and an empty accepted result is
replaced by the `[No content generated]` placeholder — but the post text
later derived from the raw draft may be empty. -/
theorem c5_raw_draft_nonempty :
    ∀ (complete : Nat → Request → CallResult) (req : Request),
      finalDraftText complete req ≠ [] ∧
      (∀ e tb, complete 1 req = CallResult.failure e tb →
        finalDraftText complete req = errorPlaceholder e tb) ∧
      ((runDraft complete req).1 = [] →
        finalDraftText complete req = ("[No content generated]".data)) := by
  intro complete req
  refine ⟨?_, ?_, ?_⟩
  · unfold finalDraftText
    dsimp only
    cases hg : (runDraft complete req).1 with
    | nil => decide
    | cons c cs => simp
  · intro e tb h
    unfold finalDraftText
    rw [runDraft_failure1 h]
    simp [errorPlaceholder_isEmpty]
  · intro h
    unfold finalDraftText
    rw [h]
    rfl

/-- Witness for C5 amended: the failure clause at a concrete failing call. -/
theorem c5_raw_draft_nonempty_witness :
    finalDraftText (constOutcome (CallResult.failure ("x".data) ("y".data)))
        sampleRequest = errorPlaceholder ("x".data) ("y".data) :=
  (c5_raw_draft_nonempty
      (constOutcome (CallResult.failure ("x".data) ("y".data)))
      sampleRequest).2.1 ("x".data) ("y".data) rfl

/-- C7 counterexample: the post output of split on `imageTailRaw` contains
no remaining visuals header (neither the step-1 line-start form nor the
step-2 newline form), yet re-running split on it does not return the same
post with empty visuals, because the trailing heuristic fires on its
`Image:` line. -/
theorem c7_not_idempotent_counterexample :
    findVisualsHeader 0 none
      (pyStrip (split_post_and_visuals imageTailRaw).1) = none ∧
    findNlVisuals 0 (pyStrip (split_post_and_visuals imageTailRaw).1) =
      none ∧
    split_post_and_visuals ((split_post_and_visuals imageTailRaw).1) ≠
      ((split_post_and_visuals imageTailRaw).1, []) := by
  exact ⟨by decide, by decide, by decide⟩

/-- C7 amended: re-running split on its own post output returns the same
post text and empty visuals, provided the post contains no remaining
visuals header and additionally no line among its last up-to-7 lines
triggers the trailing bullet/keyword heuristic. -/
theorem c7_split_idempotent_on_post :
    ∀ raw : Str,
      findVisualsHeader 0 none
        (pyStrip (split_post_and_visuals raw).1) = none →
      trailingScan (splitlines
        (pyStrip (split_post_and_visuals raw).1)) = none →
      split_post_and_visuals ((split_post_and_visuals raw).1) =
        ((split_post_and_visuals raw).1, []) := by
  intro raw hhdr htr
  have hstr : pyStrip (split_post_and_visuals raw).1 =
      (split_post_and_visuals raw).1 := split_post_stripped raw
  have hcln := split_post_clean_fixpoint raw
  rw [hstr] at hhdr htr
  set p := (split_post_and_visuals raw).1 with hp
  cases hpe : p.isEmpty with
  | true =>
      rw [List.isEmpty_iff.mp hpe]
      rfl
  | false =>
      unfold split_post_and_visuals
      rw [if_neg (by simp [hpe])]
      dsimp only
      rw [hstr, hhdr, findNlVisuals_none_of_header_none p 0 0 none hhdr, htr]
      rw [hcln]

/-- Witness for C7 amended: a single-paragraph post with no header and no
trailing trigger is a fixed point of split. -/
theorem c7_split_idempotent_on_post_witness :
    split_post_and_visuals ((split_post_and_visuals
      ("Just one paragraph, no headers, definitely over forty characters long.".data)).1) =
      ((split_post_and_visuals
        ("Just one paragraph, no headers, definitely over forty characters long.".data)).1,
       []) :=
  c7_split_idempotent_on_post
    ("Just one paragraph, no headers, definitely over forty characters long.".data)
    (by decide) (by decide)

/-- C9 counterexample: in `repeatedSentenceRaw` the sentence `Buy now.`
occurs on both sides of the visuals header; both outputs of split equal
that sentence, so a sentence of the raw text appears in both outputs. -/
theorem c9_sentence_in_both_counterexample :
    ("Buy now.".data) <:+: repeatedSentenceRaw ∧
    (split_post_and_visuals repeatedSentenceRaw).1 = ("Buy now.".data) ∧
    (split_post_and_visuals repeatedSentenceRaw).2 = ("Buy now.".data) := by
  refine ⟨⟨[], ("\nVisuals:\nBuy now.".data), by decide⟩, by decide,
    by decide⟩

/-- C9 amended: under the matched-header path (for raw text whose line
breaks are newlines) the post output is drawn entirely from the stripped
raw text before the header index and the visuals output entirely from the
part from the header onward; the two segments partition the stripped raw
text, so no single occurrence of a sentence is shared between the outputs
(though a sentence repeated on both sides can appear in both). -/
theorem c9_matched_header_disjoint_cover :
    ∀ (raw : Str) (i : Nat), raw.isEmpty = false →
      (∀ c ∈ raw, isLineBreak c = true → c = '\n') →
      findVisualsHeader 0 none (pyStrip raw) = some i →
      (split_post_and_visuals raw).1 <+ (pyStrip raw).take i ∧
      (split_post_and_visuals raw).2 <+ (pyStrip raw).drop i ∧
      (pyStrip raw).take i ++ (pyStrip raw).drop i = pyStrip raw := by
  intro raw i h0 hnl h1
  have hsplit : split_post_and_visuals raw =
      (remove_visual_lines_from_post (pyStrip (subAll postLabelMatch
        (pyStrip ((pyStrip raw).take i)))),
       pyStrip (subAll visHeaderMatch (pyStrip ((pyStrip raw).drop i)))) := by
    unfold split_post_and_visuals
    rw [if_neg (by simp [h0])]
    dsimp only
    rw [h1]
  rw [hsplit]
  have hpostchain : pyStrip (subAll postLabelMatch
      (pyStrip ((pyStrip raw).take i))) <+ (pyStrip raw).take i :=
    (pyStrip_sublist _).trans
      ((subAll_sublist postLabelMatch
        (fun _ _ h => postLabelMatch_suffix h) _).trans (pyStrip_sublist _))
  refine ⟨?_, ?_, List.take_append_drop i (pyStrip raw)⟩
  · have hnl' : ∀ c ∈ pyStrip (subAll postLabelMatch
        (pyStrip ((pyStrip raw).take i))), isLineBreak c = true → c = '\n' := by
      intro c hc hlb
      refine hnl c ?_ hlb
      exact ((hpostchain.trans (List.take_sublist _ _)).trans
        (pyStrip_sublist raw)).subset hc
    exact (remove_visual_sublist hnl').trans hpostchain
  · exact (pyStrip_sublist _).trans
      ((subAll_sublist visHeaderMatch
        (fun _ _ h => visHeaderMatch_suffix h) _).trans (pyStrip_sublist _))

/-- Witness for C9 amended: the disjoint-cover statement applied at
`repeatedSentenceRaw`, whose header is found at index 9. -/
theorem c9_matched_header_disjoint_cover_witness :
    (split_post_and_visuals repeatedSentenceRaw).1 <+
      (pyStrip repeatedSentenceRaw).take 9 ∧
    (split_post_and_visuals repeatedSentenceRaw).2 <+
      (pyStrip repeatedSentenceRaw).drop 9 ∧
    (pyStrip repeatedSentenceRaw).take 9 ++
      (pyStrip repeatedSentenceRaw).drop 9 = pyStrip repeatedSentenceRaw :=
  c9_matched_header_disjoint_cover repeatedSentenceRaw 9 (by decide)
    (by decide) (by decide)

end LinkedInGen
